import Mathlib

/-! # jek-to-hug: the rewrite rules of `main.go`

A shallow embedding of the two pure functions of `src/main.go`:

* `migratePath`  (the spec's `mapPath`): rewrites the segments of a path
  through the table `specialDirs`;
* `migrateConfig` (the spec's `translateLine`): translates one line of
  `_config.yml` into a line of `hugo.toml`, or omits it.

Go strings are modelled as lists of characters.  Every delimiter the program
searches for (the path separator, `#`, `:` and `.`) is a single ASCII
character, so searching by character and searching by byte agree on UTF-8 text.
The Go library functions `strings.Split`, `strings.Cut`, `strings.ReplaceAll`
and `strings.Join` are embedded for the one-character separators the program
passes to them.
-/

namespace JekToHug

/-- A Go `string`. -/
abbrev GoString := List Char

/-! ## The Go library functions used by the program -/

/-- The scan behind `strings.Split`: `cur` holds the characters of the field
being read; a separator closes the field and the end of input closes the last. -/
def splitFrom (sep : Char) : GoString → GoString → List GoString
  | [], cur => [cur]
  | c :: cs, cur =>
    if c = sep then cur :: splitFrom sep cs [] else splitFrom sep cs (cur ++ [c])

/-- `strings.Split(s, sep)` for a one-character separator: all the fields
between separators; the empty string gives the one field `""`. -/
def stringsSplit (s : GoString) (sep : Char) : List GoString :=
  splitFrom sep s []

/-- `strings.Cut(s, sep)` for a one-character separator:
`(before, after, found)` around the first separator, and `(s, "", false)`
when there is none. -/
def stringsCut (s : GoString) (sep : Char) : GoString × GoString × Bool :=
  match s with
  | [] => ([], [], false)
  | c :: cs =>
    if c = sep then ([], cs, true)
    else
      match stringsCut cs sep with
      | (before, after, found) => (c :: before, after, found)

/-- `strings.ReplaceAll(s, old, new)` for a one-character `old`. -/
def stringsReplaceAll (s : GoString) (old : Char) (new : GoString) : GoString :=
  match s with
  | [] => []
  | c :: cs =>
    if c = old then new ++ stringsReplaceAll cs old new
    else c :: stringsReplaceAll cs old new

/-- `strings.Join(elems, sep)`. -/
def stringsJoin (elems : List GoString) (sep : GoString) : GoString :=
  match elems with
  | [] => []
  | [a] => a
  | a :: b :: rest => a ++ sep ++ stringsJoin (b :: rest) sep

/-- The content of a `strings.Builder`. -/
abbrev Builder := GoString

/-- The Go `error` values `migratePath` could pass on. -/
inductive GoError where
  | writeFailed
  deriving DecidableEq, Repr

/-- `(*strings.Builder).WriteString`: appends, and its error is always nil. -/
def Builder.writeString (b : Builder) (s : GoString) : Except GoError Builder :=
  Except.ok (b ++ s)

/-! ## `migratePath` -/

/-- `specialDirs`, for the path separator `fileSeparator`. -/
def specialDirs (fileSeparator : Char) : List (GoString × GoString) :=
  [ ("_sass".toList,     "assets".toList ++ [fileSeparator] ++ "scss".toList),
    ("_data".toList,     "data".toList),
    ("_layouts".toList,  "layouts".toList ++ [fileSeparator] ++ "_default".toList),
    ("_includes".toList, "layouts".toList ++ [fileSeparator] ++ "partials".toList),
    ("pages".toList,     "content".toList),
    ("assets".toList,    "static".toList),
    ("js".toList,        "assets".toList ++ [fileSeparator] ++ "js".toList),
    ("css".toList,       "assets".toList ++ [fileSeparator] ++ "css".toList) ]

/-- The map read `specialDirs[p]`: the value and `ok`. -/
def specialDirsGet (fileSeparator : Char) (p : GoString) : Option GoString :=
  (specialDirs fileSeparator).lookup p

/-- The `for i, p := range splitPath` loop of `migratePath`, from index `i`
with the segments still to visit; `n` is `len(splitPath)`. -/
def migratePathLoop (fileSeparator : Char) (n : Nat) :
    Nat → List GoString → Builder → Except GoError Builder
  | _, [], migratedPath => Except.ok migratedPath
  | i, p :: rest, migratedPath => do
    let written ←
      match specialDirsGet fileSeparator p with
      | some v => Builder.writeString migratedPath v
      | none => Builder.writeString migratedPath p
    let separated ←
      if i < n - 1 then Builder.writeString written [fileSeparator]
      else Except.ok written
    migratePathLoop fileSeparator n (i + 1) rest separated

/-- The function `migratePath` of `main.go`. -/
def migratePath (fileSeparator : Char) (path : GoString) : Except GoError GoString :=
  let splitPath := stringsSplit path fileSeparator
  migratePathLoop fileSeparator splitPath.length 0 splitPath []

/-! ## `migrateConfig` -/

/-- The closure `omitConfig` of `migrateConfig`. -/
def omitConfig (c : GoString) : Bool :=
  if c = "markdown".toList ∨ c = "baseurl".toList ∨ c = "sass".toList
      ∨ c = "plugins".toList ∨ c = "defaults".toList then true
  else false

/-- The `switch config[0]` of `migrateConfig`; `none` is the run-time panic of
an index out of range. -/
def rewriteConfig (config : List GoString) : Option (List GoString) := do
  let key ← config[0]?
  if key = "exclude".toList then
    let config1 := config.set 0 "ignoreFiles".toList
    let value ← config1[1]?
    let escaped := stringsReplaceAll value '.' ['\\', '\\', '.']
    pure (config1.set 1 (escaped ++ "$".toList))
  else if key = "url".toList then
    pure (config.set 0 "BaseURL".toList)
  else
    pure config

/-- The function `migrateConfig` of `main.go`; `none` is the run-time panic of
an index out of range. -/
def migrateConfig (c : GoString) : Option (GoString × Bool) := do
  let withoutComments := (stringsCut c '#').1
  let config := stringsSplit withoutComments ':'
  let omitted := omitConfig (← config[0]?)
  if omitted || withoutComments == [] || decide (config.length < 2) then
    pure ([], true)
  else
    let config ← rewriteConfig config
    let migratedConfig := stringsJoin config "=".toList
    pure (migratedConfig, omitted)

/-! ## The algorithm of the specification, for comparison -/

/-- The specification's `mapPath`: split on the separator, replace each
segment that is a key of the table by its value, keep the others, and join with
the separator. -/
def mapPathSpec (fileSeparator : Char) (p : GoString) : GoString :=
  stringsJoin
    ((stringsSplit p fileSeparator).map fun segment =>
      match (specialDirs fileSeparator).find? (fun entry => entry.1 = segment) with
      | some entry => entry.2
      | none => segment)
    [fileSeparator]


/-! ## Lemmas on the library functions -/

theorem splitFrom_ne_nil (sep : Char) (s cur : GoString) : splitFrom sep s cur ≠ [] := by
  induction s generalizing cur with
  | nil => simp [splitFrom]
  | cons c cs ih =>
    unfold splitFrom
    split
    · simp
    · exact ih _

theorem splitFrom_length_pos (sep : Char) (s cur : GoString) :
    0 < (splitFrom sep s cur).length :=
  List.length_pos.mpr (splitFrom_ne_nil sep s cur)

theorem splitFrom_of_not_mem (sep : Char) (s cur : GoString) (h : sep ∉ s) :
    splitFrom sep s cur = [cur ++ s] := by
  induction s generalizing cur with
  | nil => simp [splitFrom]
  | cons c cs ih =>
    have hc : c ≠ sep := fun e => h (by simp [e])
    have hcs : sep ∉ cs := fun e => h (by simp [e])
    simp [splitFrom, hc, ih _ hcs]

theorem splitFrom_append_sep (sep : Char) (a b cur : GoString) (h : sep ∉ a) :
    splitFrom sep (a ++ sep :: b) cur = (cur ++ a) :: splitFrom sep b [] := by
  induction a generalizing cur with
  | nil => simp [splitFrom]
  | cons c cs ih =>
    have hc : c ≠ sep := fun e => h (by simp [e])
    have hcs : sep ∉ cs := fun e => h (by simp [e])
    simp [splitFrom, hc, ih _ hcs]

theorem stringsSplit_of_not_mem (sep : Char) (s : GoString) (h : sep ∉ s) :
    stringsSplit s sep = [s] := by
  simp [stringsSplit, splitFrom_of_not_mem sep s [] h]

theorem stringsSplit_append_sep (sep : Char) (a b : GoString) (h : sep ∉ a) :
    stringsSplit (a ++ sep :: b) sep = a :: stringsSplit b sep := by
  simp [stringsSplit, splitFrom_append_sep sep a b [] h]

theorem stringsCut_of_not_mem (sep : Char) (s : GoString) (h : sep ∉ s) :
    stringsCut s sep = (s, [], false) := by
  induction s with
  | nil => simp [stringsCut]
  | cons c cs ih =>
    have hc : c ≠ sep := fun e => h (by simp [e])
    have hcs : sep ∉ cs := fun e => h (by simp [e])
    simp [stringsCut, hc, ih hcs]

theorem stringsCut_append_sep (sep : Char) (a b : GoString) (h : sep ∉ a) :
    stringsCut (a ++ sep :: b) sep = (a, b, true) := by
  induction a with
  | nil => simp [stringsCut]
  | cons c cs ih =>
    have hc : c ≠ sep := fun e => h (by simp [e])
    have hcs : sep ∉ cs := fun e => h (by simp [e])
    simp [stringsCut, hc, ih hcs]

theorem lookup_eq_find (table : List (GoString × GoString)) (k : GoString) :
    (match table.find? (fun entry => entry.1 = k) with
      | some entry => entry.2
      | none => k) = (table.lookup k).getD k := by
  induction table with
  | nil => simp
  | cons e es ih =>
    obtain ⟨a, b⟩ := e
    by_cases hk : a = k
    · subst hk
      simp [List.lookup, List.find?]
    · have hk2 : (k == a) = false := by
        simpa using fun e => hk e.symm
      simp only [List.find?, List.lookup, hk2, hk, decide_False]
      exact ih

/-- The loop of `migratePath` appends to the builder the join of the rewritten
segments still to visit, and returns no error. -/
theorem migratePathLoop_eq (sep : Char) (n : Nat) (segs : List GoString) :
    ∀ (i : Nat) (b : Builder), i + segs.length = n →
      migratePathLoop sep n i segs b =
        Except.ok (b ++ stringsJoin
          (segs.map fun p => ((specialDirs sep).lookup p).getD p) [sep]) := by
  induction segs with
  | nil =>
    intro i b _
    simp [migratePathLoop, stringsJoin]
  | cons p rest ih =>
    intro i b hn
    cases rest with
    | nil =>
      have hi : ¬ i < n - 1 := by simp at hn; omega
      cases hv : (specialDirs sep).lookup p <;>
        simp [migratePathLoop, specialDirsGet, hv, hi, Builder.writeString, stringsJoin,
          bind, Except.bind]
    | cons q rest2 =>
      have hi : i < n - 1 := by simp at hn; omega
      have hn2 : i + 1 + (q :: rest2).length = n := by simp at hn ⊢; omega
      rw [migratePathLoop]
      cases hv : (specialDirs sep).lookup p <;>
        simp [specialDirsGet, hv, hi, Builder.writeString, stringsJoin,
          bind, Except.bind, ih (i + 1) _ hn2]

theorem stringsCut_fst_append (sep : Char) (a b : GoString) (h : sep ∉ a) :
    (stringsCut (a ++ b) sep).1 = a ++ (stringsCut b sep).1 := by
  induction a with
  | nil => simp
  | cons c cs ih =>
    have hc : c ≠ sep := fun e => h (by simp [e])
    have hcs : sep ∉ cs := fun e => h (by simp [e])
    simp [stringsCut, hc, ih hcs]

theorem mem_stringsJoin_cons_cons (a b : GoString) (rest : List GoString) (sep : Char) :
    sep ∈ stringsJoin (a :: b :: rest) [sep] := by
  simp [stringsJoin]

/-- What `switch config[0]` does to a split of at least two fields. -/
theorem rewriteConfig_cons_cons (k v : GoString) (rest : List GoString) :
    rewriteConfig (k :: v :: rest) =
      if k = "exclude".toList then
        some ("ignoreFiles".toList ::
          (stringsReplaceAll v '.' ['\\', '\\', '.'] ++ "$".toList) :: rest)
      else if k = "url".toList then some ("BaseURL".toList :: v :: rest)
      else some (k :: v :: rest) := by
  unfold rewriteConfig
  by_cases h1 : k = "exclude".toList
  · simp [h1]
  · by_cases h2 : k = "url".toList
    · simp [h2]
    · simp [h1, h2]

/-- A payload of one field is omitted. -/
theorem migrateConfig_of_split_one (c k : GoString)
    (h : stringsSplit (stringsCut c '#').1 ':' = [k]) :
    migrateConfig c = some ([], true) := by
  simp [migrateConfig, h]

/-- A payload of at least two fields is omitted when its key is in the omit
set, and is otherwise rewritten and joined with `=`. -/
theorem migrateConfig_of_split_two (c k v : GoString) (rest : List GoString)
    (h : stringsSplit (stringsCut c '#').1 ':' = k :: v :: rest) :
    migrateConfig c =
      if omitConfig k = true then some ([], true)
      else (rewriteConfig (k :: v :: rest)).map fun config =>
        (stringsJoin config "=".toList, false) := by
  have hw : (stringsCut c '#').1 ≠ [] := by
    intro e
    rw [e] at h
    simp [stringsSplit, splitFrom] at h
  by_cases ho : omitConfig k = true
  · simp [migrateConfig, h, ho]
  · have ho2 : omitConfig k = false := by simpa using ho
    simp only [migrateConfig, h]
    have hlen : ¬ (rest.length + 1 + 1 < 2) := by omega
    simp [ho2, hw, hlen, Option.map, rewriteConfig_cons_cons]
    split_ifs <;> simp

theorem stringsSplit_cases (s : GoString) (sep : Char) :
    (∃ k, stringsSplit s sep = [k]) ∨ ∃ k v rest, stringsSplit s sep = k :: v :: rest := by
  have h := splitFrom_ne_nil sep s []
  unfold stringsSplit
  match hs : splitFrom sep s [] with
  | [] => exact absurd hs h
  | [k] => exact Or.inl ⟨k, rfl⟩
  | k :: v :: rest => exact Or.inr ⟨k, v, rest, rfl⟩

/-- The fields of the line `k:rest` when the key has neither `#` nor `:`. -/
theorem split_payload_key (k rest : GoString) (h1 : '#' ∉ k) (h2 : ':' ∉ k) :
    stringsSplit (stringsCut (k ++ ':' :: rest) '#').1 ':' =
      k :: stringsSplit (stringsCut rest '#').1 ':' := by
  have hcut : (stringsCut (':' :: rest) '#').1 = ':' :: (stringsCut rest '#').1 := by
    simp [stringsCut]
  rw [stringsCut_fst_append '#' k _ h1, hcut, stringsSplit_append_sep ':' k _ h2]

/-- The fields of the line `k:v` when neither part has `#` or `:`. -/
theorem split_payload_key_value (k v : GoString) (h1 : '#' ∉ k) (h2 : ':' ∉ k)
    (h3 : '#' ∉ v) (h4 : ':' ∉ v) :
    stringsSplit (stringsCut (k ++ ':' :: v) '#').1 ':' = [k, v] := by
  rw [split_payload_key k v h1 h2, stringsCut_of_not_mem '#' v h3,
    stringsSplit_of_not_mem ':' v h4]

theorem stringsReplaceAll_eq_flatMap (s : GoString) (old : Char) (new : GoString) :
    stringsReplaceAll s old new = s.flatMap fun c => if c = old then new else [c] := by
  induction s with
  | nil => simp [stringsReplaceAll]
  | cons c cs ih =>
    by_cases hc : c = old <;> simp [stringsReplaceAll, hc, ih]

/-! ## Lemmas on splitting and joining paths -/

theorem splitFrom_append_sep_any (sep : Char) (a b cur : GoString) :
    splitFrom sep (a ++ sep :: b) cur = splitFrom sep a cur ++ splitFrom sep b [] := by
  induction a generalizing cur with
  | nil => simp [splitFrom]
  | cons c cs ih =>
    by_cases hc : c = sep <;> simp [splitFrom, hc, ih]

theorem stringsSplit_append_sep_any (sep : Char) (a b : GoString) :
    stringsSplit (a ++ sep :: b) sep = stringsSplit a sep ++ stringsSplit b sep := by
  simp [stringsSplit, splitFrom_append_sep_any]

theorem stringsSplit_ne_nil (s : GoString) (sep : Char) : stringsSplit s sep ≠ [] :=
  splitFrom_ne_nil sep s []

theorem stringsJoin_cons_of_ne_nil (a : GoString) (xs : List GoString) (sep : GoString)
    (h : xs ≠ []) : stringsJoin (a :: xs) sep = a ++ sep ++ stringsJoin xs sep := by
  cases xs with
  | nil => exact absurd rfl h
  | cons b rest => simp [stringsJoin]

theorem stringsJoin_append (xs ys : List GoString) (sep : GoString)
    (hx : xs ≠ []) (hy : ys ≠ []) :
    stringsJoin (xs ++ ys) sep = stringsJoin xs sep ++ sep ++ stringsJoin ys sep := by
  induction xs with
  | nil => exact absurd rfl hx
  | cons a rest ih =>
    cases rest with
    | nil =>
      simp [stringsJoin_cons_of_ne_nil a ys sep hy, stringsJoin]
    | cons b rest2 =>
      have h1 : (b :: rest2) ++ ys ≠ [] := by simp
      have h2 : a :: b :: rest2 ++ ys = a :: ((b :: rest2) ++ ys) := by simp
      rw [h2, stringsJoin_cons_of_ne_nil a _ sep h1, ih (by simp),
        stringsJoin_cons_of_ne_nil a (b :: rest2) sep (by simp)]
      simp

/-- Joining the fields of a split with the separator gives the string back. -/
theorem stringsJoin_splitFrom (sep : Char) (s cur : GoString) :
    stringsJoin (splitFrom sep s cur) [sep] = cur ++ s := by
  induction s generalizing cur with
  | nil => simp [splitFrom, stringsJoin]
  | cons c cs ih =>
    by_cases hc : c = sep
    · simp [splitFrom, hc, stringsJoin_cons_of_ne_nil cur _ [sep] (splitFrom_ne_nil sep cs []),
        ih]
    · simp [splitFrom, hc, ih]

theorem stringsJoin_stringsSplit (sep : Char) (s : GoString) :
    stringsJoin (stringsSplit s sep) [sep] = s := by
  simp [stringsSplit, stringsJoin_splitFrom]

/-- No field of a split contains the separator. -/
theorem not_mem_of_mem_splitFrom (sep : Char) (s cur : GoString) (hcur : sep ∉ cur) :
    ∀ x ∈ splitFrom sep s cur, sep ∉ x := by
  induction s generalizing cur with
  | nil => simpa [splitFrom] using hcur
  | cons c cs ih =>
    by_cases hc : c = sep
    · intro x hx
      simp only [splitFrom, hc, if_true, List.mem_cons] at hx
      rcases hx with rfl | hx
      · exact hcur
      · exact ih [] (by simp) x hx
    · intro x hx
      simp only [splitFrom, hc, if_false] at hx
      have hcur2 : sep ∉ cur ++ [c] := by
        simp only [List.mem_append, List.mem_singleton, not_or]
        exact ⟨hcur, fun e => hc e.symm⟩
      exact ih _ hcur2 x hx

theorem not_mem_of_mem_stringsSplit (sep : Char) (s : GoString) :
    ∀ x ∈ stringsSplit s sep, sep ∉ x :=
  not_mem_of_mem_splitFrom sep s [] (by simp)

/-- The fields of a join are the fields of its elements. -/
theorem stringsSplit_stringsJoin (sep : Char) (xs : List GoString) (h : xs ≠ []) :
    stringsSplit (stringsJoin xs [sep]) sep = xs.flatMap fun x => stringsSplit x sep := by
  induction xs with
  | nil => exact absurd rfl h
  | cons a rest ih =>
    cases rest with
    | nil => simp [stringsJoin]
    | cons b rest2 =>
      rw [stringsJoin_cons_of_ne_nil a _ [sep] (by simp)]
      have e : a ++ [sep] ++ stringsJoin (b :: rest2) [sep] =
          a ++ sep :: stringsJoin (b :: rest2) [sep] := by simp
      rw [e, stringsSplit_append_sep_any, ih (by simp)]
      simp

theorem splitFrom_length (sep : Char) (s cur : GoString) :
    (splitFrom sep s cur).length = s.count sep + 1 := by
  induction s generalizing cur with
  | nil => simp [splitFrom]
  | cons c cs ih =>
    by_cases hc : c = sep
    · simp [splitFrom, hc, ih]
    · simp [splitFrom, hc, ih, List.count_cons]

theorem stringsSplit_length (sep : Char) (s : GoString) :
    (stringsSplit s sep).length = s.count sep + 1 :=
  splitFrom_length sep s []

/-- The result of `migratePath`, as a join over the segments. -/
theorem migratePath_ok (sep : Char) (p : GoString) :
    migratePath sep p = Except.ok (stringsJoin
      ((stringsSplit p sep).map fun seg => ((specialDirs sep).lookup seg).getD seg) [sep]) := by
  have h := migratePathLoop_eq sep (stringsSplit p sep).length (stringsSplit p sep) 0 []
    (by simp)
  unfold migratePath
  simpa using h

/-- A segment that is none of the eight keys is not in the table. -/
theorem lookup_specialDirs_of_not_key (sep : Char) (seg : GoString)
    (h : seg ∉ ["_sass".toList, "_data".toList, "_layouts".toList, "_includes".toList,
      "pages".toList, "assets".toList, "js".toList, "css".toList]) :
    (specialDirs sep).lookup seg = none := by
  simp only [List.mem_cons, List.mem_singleton, List.not_mem_nil, or_false, not_or] at h
  obtain ⟨h1, h2, h3, h4, h5, h6, h7, h8⟩ := h
  have b : ∀ k : GoString, seg ≠ k → (seg == k) = false := fun k hk => by simpa using hk
  simp only [specialDirs, List.lookup, b _ h1, b _ h2, b _ h3, b _ h4, b _ h5, b _ h6, b _ h7,
    b _ h8]

/-- Mapping a path whose segments are all outside the table returns it. -/
theorem stringsJoin_map_lookup_of_no_key (sep : Char) (p : GoString)
    (h : ∀ seg ∈ stringsSplit p sep, (specialDirs sep).lookup seg = none) :
    stringsJoin
      ((stringsSplit p sep).map fun seg => ((specialDirs sep).lookup seg).getD seg) [sep] = p := by
  have hmap : ((stringsSplit p sep).map fun seg => ((specialDirs sep).lookup seg).getD seg) =
      stringsSplit p sep := by
    conv_rhs => rw [← List.map_id (stringsSplit p sep)]
    apply List.map_congr_left
    intro seg hseg
    simp [h seg hseg]
  rw [hmap, stringsJoin_stringsSplit]

/-- The segments of the image of a segment that is not `_sass`, `js` or `css`
are outside the table. -/
theorem segment_image_no_key (sep : Char) (seg : GoString)
    (hsep : sep = '/' ∨ sep = '\\') (hs : sep ∉ seg)
    (h : seg ∉ ["_sass".toList, "js".toList, "css".toList]) :
    ∀ s ∈ stringsSplit (((specialDirs sep).lookup seg).getD seg) sep,
      s ∉ ["_sass".toList, "_data".toList, "_layouts".toList, "_includes".toList,
        "pages".toList, "assets".toList, "js".toList, "css".toList] := by
  by_cases hk : seg ∈ ["_sass".toList, "_data".toList, "_layouts".toList,
      "_includes".toList, "pages".toList, "assets".toList, "js".toList, "css".toList]
  · clear hs
    simp only [List.mem_cons, List.mem_singleton, List.not_mem_nil, or_false] at hk
    rcases hsep with rfl | rfl <;>
      rcases hk with rfl | rfl | rfl | rfl | rfl | rfl | rfl | rfl <;>
      first
        | decide
        | (exfalso; revert h; decide)
  · rw [lookup_specialDirs_of_not_key sep seg hk]
    simp only [Option.getD_none]
    rw [stringsSplit_of_not_mem sep seg hs]
    intro s hmem
    simp only [List.mem_singleton] at hmem
    rw [hmem]
    exact hk

/-- Counting separators in a join: those of the elements, and one between
every two neighbours. -/
theorem count_stringsJoin (sep : Char) (xs : List GoString) (h : xs ≠ []) :
    (stringsJoin xs [sep]).count sep + 1 = (xs.map fun x => x.count sep).sum + xs.length := by
  induction xs with
  | nil => exact absurd rfl h
  | cons a rest ih =>
    cases rest with
    | nil => simp [stringsJoin]
    | cons b rest2 =>
      rw [stringsJoin_cons_of_ne_nil a _ [sep] (by simp)]
      have ih2 := ih (by simp)
      simp only [List.count_append, List.map_cons, List.sum_cons, List.length_cons,
        List.count_singleton_self] at ih2 ⊢
      omega

theorem sum_map_ite_eq_countP (xs : List GoString) (q : GoString → Bool) :
    (xs.map fun x => if q x = true then 1 else 0).sum = xs.countP q := by
  induction xs with
  | nil => simp
  | cons a rest ih =>
    by_cases ha : q a = true
    · rw [List.countP_cons_of_pos _ _ ha, List.map_cons, List.sum_cons, ih, if_pos ha]
      omega
    · rw [List.countP_cons_of_neg _ _ ha, List.map_cons, List.sum_cons, ih, if_neg ha]
      omega

/-- The separators in the image of a segment: those of its replacement. -/
theorem count_segment_image (sep : Char) (seg : GoString) (hs : sep ∉ seg) :
    (((specialDirs sep).lookup seg).getD seg).count sep =
      match specialDirsGet sep seg with
      | some v => v.count sep
      | none => 0 := by
  unfold specialDirsGet
  cases hv : (specialDirs sep).lookup seg with
  | none => simpa using List.count_eq_zero.mpr hs
  | some v => simp

/-- The replacements of `_sass`, `_layouts`, `_includes`, `js` and `css` hold
one separator, the others none. -/
theorem count_replacement (sep : Char) (seg : GoString) (hsep : sep = '/' ∨ sep = '\\') :
    (match specialDirsGet sep seg with
      | some v => v.count sep
      | none => 0) =
      if decide (seg ∈ ["_sass".toList, "_layouts".toList, "_includes".toList, "js".toList,
        "css".toList]) = true then 1 else 0 := by
  by_cases hk : seg ∈ ["_sass".toList, "_data".toList, "_layouts".toList,
      "_includes".toList, "pages".toList, "assets".toList, "js".toList, "css".toList]
  · simp only [List.mem_cons, List.mem_singleton, List.not_mem_nil, or_false] at hk
    rcases hsep with rfl | rfl <;>
      rcases hk with rfl | rfl | rfl | rfl | rfl | rfl | rfl | rfl <;> decide
  · have hnone := lookup_specialDirs_of_not_key sep seg hk
    have hfive : seg ∉ ["_sass".toList, "_layouts".toList, "_includes".toList, "js".toList,
        "css".toList] := by
      intro hmem
      apply hk
      simp only [List.mem_cons, List.mem_singleton, List.not_mem_nil, or_false] at hmem ⊢
      tauto
    unfold specialDirsGet
    rw [hnone, if_neg (by simpa using hfive)]

/-- The segments of the image of a segment are none of the source-only
directory names. -/
theorem segment_image_not_source_only (sep : Char) (seg : GoString)
    (hsep : sep = '/' ∨ sep = '\\') (hs : sep ∉ seg) :
    ∀ s ∈ stringsSplit (((specialDirs sep).lookup seg).getD seg) sep,
      s ∉ ["_sass".toList, "_data".toList, "_layouts".toList, "_includes".toList,
        "pages".toList] := by
  by_cases hk : seg ∈ ["_sass".toList, "_data".toList, "_layouts".toList,
      "_includes".toList, "pages".toList, "assets".toList, "js".toList, "css".toList]
  · clear hs
    simp only [List.mem_cons, List.mem_singleton, List.not_mem_nil, or_false] at hk
    rcases hsep with rfl | rfl <;>
      rcases hk with rfl | rfl | rfl | rfl | rfl | rfl | rfl | rfl <;> decide
  · rw [lookup_specialDirs_of_not_key sep seg hk]
    simp only [Option.getD_none]
    rw [stringsSplit_of_not_mem sep seg hs]
    intro s hmem hsrc
    simp only [List.mem_singleton] at hmem
    rw [hmem] at hsrc
    apply hk
    simp only [List.mem_cons, List.mem_singleton, List.not_mem_nil, or_false] at hsrc ⊢
    tauto

theorem length_le_length_flatMap (g : GoString → List GoString) (hg : ∀ x, g x ≠ [])
    (xs : List GoString) : xs.length ≤ (xs.flatMap g).length := by
  induction xs with
  | nil => simp
  | cons a rest ih =>
    have ha : 0 < (g a).length := List.length_pos.mpr (hg a)
    simp only [List.flatMap_cons, List.length_append, List.length_cons]
    omega

/-- A list of segments that is its own expansion has only segments that
expand to themselves. -/
theorem flatMap_eq_self (g : GoString → List GoString) (hg : ∀ x, g x ≠ [])
    (xs : List GoString) (h : xs.flatMap g = xs) : ∀ x ∈ xs, g x = [x] := by
  induction xs with
  | nil => simp
  | cons a rest ih =>
    rw [List.flatMap_cons] at h
    cases hga : g a with
    | nil => exact absurd hga (hg a)
    | cons b bs =>
      rw [hga, List.cons_append] at h
      obtain ⟨hb, htail⟩ := List.cons.inj h
      have hlen := congrArg List.length htail
      have hle := length_le_length_flatMap g hg rest
      rw [List.length_append] at hlen
      have hbs : bs = [] := List.length_eq_zero.mp (by omega)
      rw [hbs, List.nil_append] at htail
      intro x hx
      rcases List.mem_cons.mp hx with rfl | hx
      · rw [hga, hbs, hb]
      · exact ih htail x hx

/-- The image of `_sass`, `js` or `css` has the segment `assets`. -/
theorem assets_mem_segment_image (sep : Char) (seg : GoString)
    (hsep : sep = '/' ∨ sep = '\\')
    (h : seg ∈ ["_sass".toList, "js".toList, "css".toList]) :
    "assets".toList ∈ stringsSplit (((specialDirs sep).lookup seg).getD seg) sep := by
  simp only [List.mem_cons, List.mem_singleton, List.not_mem_nil, or_false] at h
  rcases hsep with rfl | rfl <;> rcases h with rfl | rfl | rfl <;> decide

/-- The segment `assets` does not expand to itself. -/
theorem assets_image_ne (sep : Char) (hsep : sep = '/' ∨ sep = '\\') :
    stringsSplit (((specialDirs sep).lookup "assets".toList).getD "assets".toList) sep ≠
      ["assets".toList] := by
  rcases hsep with rfl | rfl <;> decide

/-! ## Lemmas on the key and the fields of a configuration line -/

/-- A string that contains the separator is cut into the text before its
first separator, which has none, and the text after it. -/
theorem stringsCut_of_mem (sep : Char) (s : GoString) (h : sep ∈ s) :
    s = (stringsCut s sep).1 ++ sep :: (stringsCut s sep).2.1 ∧
      sep ∉ (stringsCut s sep).1 := by
  induction s with
  | nil => simp at h
  | cons c cs ih =>
    by_cases hc : c = sep
    · simp [stringsCut, hc]
    · have hcs : sep ∈ cs := by
        rcases List.mem_cons.mp h with e | e
        · exact absurd e.symm hc
        · exact e
      obtain ⟨h1, h2⟩ := ih hcs
      refine ⟨?_, ?_⟩
      · simp only [stringsCut, hc, if_false, List.cons_append]
        exact congrArg (List.cons c) h1
      · simp only [stringsCut, hc, if_false, List.mem_cons, not_or]
        exact ⟨fun e => hc e.symm, h2⟩

theorem not_mem_stringsCut_fst (sep : Char) (s : GoString) : sep ∉ (stringsCut s sep).1 := by
  by_cases h : sep ∈ s
  · exact (stringsCut_of_mem sep s h).2
  · rw [stringsCut_of_not_mem sep s h]
    exact h

/-- The first field of a split is the text before the first separator. -/
theorem stringsSplit_of_mem (sep : Char) (s : GoString) (h : sep ∈ s) :
    stringsSplit s sep =
      (stringsCut s sep).1 :: stringsSplit (stringsCut s sep).2.1 sep := by
  obtain ⟨h1, h2⟩ := stringsCut_of_mem sep s h
  conv_lhs => rw [h1]
  exact stringsSplit_append_sep sep _ _ h2

theorem omitConfig_eq_true_iff (k : GoString) :
    omitConfig k = true ↔ k ∈ ["markdown".toList, "baseurl".toList, "sass".toList, "plugins".toList,
      "defaults".toList] := by
  simp only [List.mem_cons, List.mem_singleton, List.not_mem_nil, or_false]
  unfold omitConfig
  split_ifs with h
  · simp only [true_iff]
    exact h
  · simp only [Bool.false_eq_true, false_iff]
    exact h

/-- A payload without `:` is omitted. -/
theorem migrateConfig_no_colon_aux (c : GoString) (h : ':' ∉ (stringsCut c '#').1) :
    migrateConfig c = some ([], true) :=
  migrateConfig_of_split_one c (stringsCut c '#').1 (stringsSplit_of_not_mem ':' _ h)

/-- The two ways `migrateConfig` ends: the line is omitted, when the payload
has no `:` or its key is in the omit set; otherwise the fields, at least two,
go through the key switch and are joined with `=`. -/
theorem migrateConfig_cases (c : GoString) :
    ((':' ∉ (stringsCut c '#').1 ∨
        omitConfig (stringsCut (stringsCut c '#').1 ':').1 = true) ∧
      migrateConfig c = some ([], true)) ∨
    (':' ∈ (stringsCut c '#').1 ∧
      omitConfig (stringsCut (stringsCut c '#').1 ':').1 = false ∧
      ∃ v rest,
        stringsSplit (stringsCut (stringsCut c '#').1 ':').2.1 ':' = v :: rest ∧
        migrateConfig c =
          (rewriteConfig ((stringsCut (stringsCut c '#').1 ':').1 :: v :: rest)).map
            fun config => (stringsJoin config "=".toList, false)) := by
  by_cases hcolon : ':' ∈ (stringsCut c '#').1
  · have hsplit := stringsSplit_of_mem ':' _ hcolon
    obtain ⟨v, rest, hv⟩ : ∃ v rest,
        stringsSplit (stringsCut (stringsCut c '#').1 ':').2.1 ':' = v :: rest := by
      rcases stringsSplit_cases (stringsCut (stringsCut c '#').1 ':').2.1 ':' with
        ⟨k, hk⟩ | ⟨k, v, rest, hk⟩
      · exact ⟨k, [], hk⟩
      · exact ⟨k, v :: rest, hk⟩
    rw [hv] at hsplit
    have hr := migrateConfig_of_split_two c _ v rest hsplit
    by_cases ho : omitConfig (stringsCut (stringsCut c '#').1 ':').1 = true
    · rw [if_pos ho] at hr
      exact Or.inl ⟨Or.inr ho, hr⟩
    · rw [if_neg ho] at hr
      exact Or.inr ⟨hcolon, by simpa using ho, v, rest, hv, hr⟩
  · exact Or.inl ⟨Or.inl hcolon, migrateConfig_no_colon_aux c hcolon⟩

/-! ## Lemmas on the characters of an output line -/

theorem mem_stringsReplaceAll (ch old : Char) (s new : GoString)
    (h : ch ∈ stringsReplaceAll s old new) : ch ∈ s ∨ ch ∈ new := by
  induction s with
  | nil => simp [stringsReplaceAll] at h
  | cons c cs ih =>
    by_cases hc : c = old
    · simp only [stringsReplaceAll, hc, if_true, List.mem_append] at h
      rcases h with h | h
      · exact Or.inr h
      · rcases ih h with h2 | h2
        · exact Or.inl (List.mem_cons_of_mem _ h2)
        · exact Or.inr h2
    · simp only [stringsReplaceAll, hc, if_false, List.mem_cons] at h
      rcases h with h | h
      · exact Or.inl (by simp [h])
      · rcases ih h with h2 | h2
        · exact Or.inl (List.mem_cons_of_mem _ h2)
        · exact Or.inr h2

theorem not_mem_stringsJoin (ch : Char) (xs : List GoString) (sep : GoString)
    (hsep : ch ∉ sep) (hx : ∀ x ∈ xs, ch ∉ x) : ch ∉ stringsJoin xs sep := by
  induction xs with
  | nil => simp [stringsJoin]
  | cons a rest ih =>
    cases rest with
    | nil => simpa [stringsJoin] using hx a (by simp)
    | cons b rest2 =>
      rw [stringsJoin_cons_of_ne_nil a _ sep (by simp)]
      simp only [List.mem_append, not_or]
      exact ⟨⟨hx a (by simp), hsep⟩, ih (fun x hmem => hx x (List.mem_cons_of_mem _ hmem))⟩

theorem mem_of_mem_splitFrom (sep ch : Char) (s cur : GoString) :
    ∀ x ∈ splitFrom sep s cur, ch ∈ x → ch ∈ cur ∨ ch ∈ s := by
  induction s generalizing cur with
  | nil =>
    intro x hx hch
    simp only [splitFrom, List.mem_singleton] at hx
    exact Or.inl (hx ▸ hch)
  | cons c cs ih =>
    intro x hx hch
    by_cases hc : c = sep
    · simp only [splitFrom, hc, if_true, List.mem_cons] at hx
      rcases hx with rfl | hx
      · exact Or.inl hch
      · rcases ih [] x hx hch with h | h
        · simp at h
        · exact Or.inr (List.mem_cons_of_mem _ h)
    · simp only [splitFrom, hc, if_false] at hx
      rcases ih _ x hx hch with h | h
      · simp only [List.mem_append, List.mem_singleton] at h
        rcases h with h | h
        · exact Or.inl h
        · exact Or.inr (by simp [h])
      · exact Or.inr (List.mem_cons_of_mem _ h)

/-- Joining the fields of a split with `new` replaces every separator by `new`. -/
theorem stringsJoin_splitFrom_eq_replaceAll (sep : Char) (s cur new : GoString) :
    stringsJoin (splitFrom sep s cur) new = cur ++ stringsReplaceAll s sep new := by
  induction s generalizing cur with
  | nil => simp [splitFrom, stringsJoin, stringsReplaceAll]
  | cons c cs ih =>
    by_cases hc : c = sep
    · simp [splitFrom, hc, stringsReplaceAll,
        stringsJoin_cons_of_ne_nil cur _ new (splitFrom_ne_nil sep cs []), ih]
    · simp [splitFrom, hc, stringsReplaceAll, ih]

theorem stringsReplaceAll_append_of_not_mem (old : Char) (a b new : GoString)
    (h : old ∉ a) :
    stringsReplaceAll (a ++ b) old new = a ++ stringsReplaceAll b old new := by
  induction a with
  | nil => simp
  | cons c cs ih =>
    have hc : c ≠ old := fun e => h (by simp [e])
    have hcs : old ∉ cs := fun e => h (by simp [e])
    simp [stringsReplaceAll, hc, ih hcs]

/-- The key switch and the join with `=` bring neither `:` nor `#` into a
line whose fields have none. -/
theorem not_mem_joined_config (ch : Char) (hch : ch = ':' ∨ ch = '#')
    (k v : GoString) (rest config : List GoString)
    (hf : ∀ x ∈ k :: v :: rest, ch ∉ x)
    (hconfig : rewriteConfig (k :: v :: rest) = some config) :
    ch ∉ stringsJoin config "=".toList := by
  have hk := hf k (by simp)
  have hv := hf v (by simp)
  have hrest : ∀ x ∈ rest, ch ∉ x := fun x hx => hf x (by simp [hx])
  have hsep : ch ∉ "=".toList := by rcases hch with rfl | rfl <;> decide
  rw [rewriteConfig_cons_cons] at hconfig
  apply not_mem_stringsJoin ch config _ hsep
  split_ifs at hconfig with h1 h2
  · have e := (Option.some.inj hconfig).symm
    subst e
    intro x hx
    simp only [List.mem_cons] at hx
    rcases hx with rfl | rfl | hx
    · rcases hch with rfl | rfl <;> decide
    · intro hmem
      simp only [List.mem_append] at hmem
      rcases hmem with hmem | hmem
      · rcases mem_stringsReplaceAll _ _ _ _ hmem with h3 | h3
        · exact hv h3
        · revert h3
          rcases hch with rfl | rfl <;> decide
      · revert hmem
        rcases hch with rfl | rfl <;> decide
    · exact hrest x hx
  · have e := (Option.some.inj hconfig).symm
    subst e
    intro x hx
    simp only [List.mem_cons] at hx
    rcases hx with rfl | rfl | hx
    · rcases hch with rfl | rfl <;> decide
    · exact hv
    · exact hrest x hx
  · have e := (Option.some.inj hconfig).symm
    subst e
    exact hf

/-! ## Claims -/

/-- C1: for every path `p` (and every path separator), `migratePath` returns,
without error, the path obtained by splitting `p` on the separator, replacing
each segment that is exactly a key of `specialDirs` by its value, keeping the
other segments, and joining with the separator; for example
`_sass/theme.scss` becomes `assets/scss/theme.scss`. -/
theorem migratePath_eq_mapPathSpec (sep : Char) (p : GoString) :
    migratePath sep p = Except.ok (mapPathSpec sep p) ∧
    migratePath '/' "_sass/theme.scss".toList = Except.ok "assets/scss/theme.scss".toList := by
  refine ⟨?_, by rfl⟩
  unfold migratePath mapPathSpec
  simp only [lookup_eq_find]
  have h := migratePathLoop_eq sep (stringsSplit p sep).length (stringsSplit p sep) 0 []
    (by simp)
  simpa using h

/-- C2: for every key `k` of the omit set (markdown, baseurl, sass,
plugins, defaults) and every string `rest`, `migrateConfig` on the line `k:rest`
returns the empty output with omit = true, whatever `rest` is. -/
theorem migrateConfig_omit_key (k rest : GoString)
    (hk : k ∈ ["markdown".toList, "baseurl".toList, "sass".toList, "plugins".toList,
      "defaults".toList]) :
    migrateConfig (k ++ ":".toList ++ rest) = some ([], true) := by
  have hfacts : '#' ∉ k ∧ ':' ∉ k ∧ omitConfig k = true := by
    simp only [List.mem_cons, List.mem_singleton, List.not_mem_nil, or_false] at hk
    rcases hk with rfl | rfl | rfl | rfl | rfl <;> decide
  obtain ⟨h1, h2, h3⟩ := hfacts
  have hsplit := split_payload_key k rest h1 h2
  have hline : k ++ ":".toList ++ rest = k ++ ':' :: rest := by simp
  rw [hline]
  rcases stringsSplit_cases (stringsCut rest '#').1 ':' with ⟨a, ha⟩ | ⟨a, b, t, ha⟩
  · rw [ha] at hsplit
    rw [migrateConfig_of_split_two _ k a [] hsplit]
    simp [h3]
  · rw [ha] at hsplit
    rw [migrateConfig_of_split_two _ k a (b :: t) hsplit]
    simp [h3]

theorem migrateConfig_omit_key_witness :
    "sass".toList ∈ ["markdown".toList, "baseurl".toList, "sass".toList, "plugins".toList,
      "defaults".toList] ∧
    migrateConfig ("sass".toList ++ ":".toList ++ " style: compressed # x".toList) =
      some ([], true) :=
  ⟨by decide, migrateConfig_omit_key "sass".toList " style: compressed # x".toList (by decide)⟩

/-- C3: every line whose payload (the part before the first `#`, the whole
line when there is none) contains no `:`, the empty payload included, is
omitted with an empty output. -/
theorem migrateConfig_no_colon (c : GoString) (h : ':' ∉ (stringsCut c '#').1) :
    migrateConfig c = some ([], true) :=
  migrateConfig_of_split_one c (stringsCut c '#').1 (stringsSplit_of_not_mem ':' _ h)

theorem migrateConfig_no_colon_witness :
    (':' ∉ (stringsCut "# just a comment".toList '#').1 ∧
      migrateConfig "# just a comment".toList = some ([], true)) ∧
    (':' ∉ (stringsCut "title".toList '#').1 ∧
      migrateConfig "title".toList = some ([], true)) :=
  ⟨⟨by decide, migrateConfig_no_colon "# just a comment".toList (by decide)⟩,
    ⟨by decide, migrateConfig_no_colon "title".toList (by decide)⟩⟩

/-- C4, as stated, fails: on the line `exclude: *.log` the output is
`ignoreFiles= *\\.log$`, with two backslashes before the dot, and not
`ignoreFiles= *\.log$` with one. -/
theorem migrateConfig_exclude_one_backslash_false :
    migrateConfig ("exclude:".toList ++ " *.log".toList) ≠
        some ("ignoreFiles=".toList ++
          (" *.log".toList.flatMap fun c => if c = '.' then ['\\', '.'] else [c]) ++
          "$".toList, false) ∧
    migrateConfig "exclude: *.log".toList ≠ some ("ignoreFiles= *\\.log$".toList, false) ∧
    migrateConfig "exclude: *.log".toList =
      some ("ignoreFiles= *\\\\.log$".toList, false) := by
  decide

/-- C4, amended: for every value `v` containing no `:` and no `#`,
`migrateConfig` on the line `exclude:v` returns omit = false and the output
`ignoreFiles=` followed by `v` in which every `.` is replaced by the three
characters backslash, backslash, dot, followed by `$`. -/
theorem migrateConfig_exclude (v : GoString) (h1 : ':' ∉ v) (h2 : '#' ∉ v) :
    migrateConfig ("exclude:".toList ++ v) =
      some ("ignoreFiles=".toList ++
        (v.flatMap fun c => if c = '.' then ['\\', '\\', '.'] else [c]) ++ "$".toList,
        false) := by
  have hline : "exclude:".toList ++ v = "exclude".toList ++ ':' :: v := by simp
  have hsplit := split_payload_key_value "exclude".toList v (by decide) (by decide) h2 h1
  rw [hline, migrateConfig_of_split_two _ _ _ _ hsplit, rewriteConfig_cons_cons,
    stringsReplaceAll_eq_flatMap]
  have ho : omitConfig "exclude".toList = false := by decide
  rw [ho]
  simp [stringsJoin]

theorem migrateConfig_exclude_witness :
    (':' ∉ " *.log".toList ∧ '#' ∉ " *.log".toList) ∧
    migrateConfig ("exclude:".toList ++ " *.log".toList) =
      some ("ignoreFiles=".toList ++
        (" *.log".toList.flatMap fun c => if c = '.' then ['\\', '\\', '.'] else [c]) ++
        "$".toList, false) :=
  ⟨by decide, migrateConfig_exclude " *.log".toList (by decide) (by decide)⟩

/-- C5, as stated, fails: on the line `url: /blog` the output is not
`BaseURL=/blog`. -/
theorem migrateConfig_url_blog_no_space_false :
    migrateConfig "url: /blog".toList ≠ some ("BaseURL=/blog".toList, false) := by
  decide

/-- C5, amended: on the line `url: /blog`, `migrateConfig` returns exactly the
output `BaseURL= /blog`, the space after the colon kept, with omit = false. -/
theorem migrateConfig_url_blog :
    migrateConfig "url: /blog".toList = some ("BaseURL= /blog".toList, false) := by
  decide

/-- C6: for every key `k` with no `:` and no `#`, outside the omit set and
different from `exclude`, and every value `v` with no `:` and no `#`,
`migrateConfig` on the line `k:v` returns `k'=v` with omit = false, where `k'`
is `BaseURL` when `k` is `url` and `k` otherwise; the value is unchanged. -/
theorem migrateConfig_key_value (k v : GoString)
    (hk1 : ':' ∉ k) (hk2 : '#' ∉ k)
    (hk3 : k ∉ ["markdown".toList, "baseurl".toList, "sass".toList, "plugins".toList,
      "defaults".toList])
    (hk4 : k ≠ "exclude".toList) (hv1 : ':' ∉ v) (hv2 : '#' ∉ v) :
    migrateConfig (k ++ ":".toList ++ v) =
      some ((if k = "url".toList then "BaseURL".toList else k) ++ "=".toList ++ v, false) := by
  have hline : k ++ ":".toList ++ v = k ++ ':' :: v := by simp
  have hsplit := split_payload_key_value k v hk2 hk1 hv2 hv1
  have ho : omitConfig k = false := by
    simp only [List.mem_cons, List.mem_singleton, List.not_mem_nil, or_false] at hk3
    unfold omitConfig
    rw [if_neg hk3]
  rw [hline, migrateConfig_of_split_two _ _ _ _ hsplit, rewriteConfig_cons_cons, ho,
    if_neg hk4]
  by_cases hu : k = "url".toList
  · rw [if_pos hu, if_pos hu]
    simp [stringsJoin]
  · rw [if_neg hu, if_neg hu]
    simp [stringsJoin]

theorem migrateConfig_key_value_witness :
    (':' ∉ "title".toList ∧ '#' ∉ "title".toList ∧
      "title".toList ∉ ["markdown".toList, "baseurl".toList, "sass".toList,
        "plugins".toList, "defaults".toList] ∧
      "title".toList ≠ "exclude".toList ∧
      ':' ∉ " My Site".toList ∧ '#' ∉ " My Site".toList) ∧
    migrateConfig ("title".toList ++ ":".toList ++ " My Site".toList) =
      some ((if "title".toList = "url".toList then "BaseURL".toList else "title".toList)
        ++ "=".toList ++ " My Site".toList, false) :=
  ⟨by decide,
    migrateConfig_key_value "title".toList " My Site".toList (by decide) (by decide)
      (by decide) (by decide) (by decide) (by decide)⟩

/-- C7 on the code: the line `url: http://example.com` satisfies the
conditions of the claim (the key `url` has no `:` and no `#`, is outside the
omit set and is not `exclude`; the remainder has no `#`), yet `migrateConfig`
splits on every colon and returns `BaseURL= http=//example.com` instead of
`BaseURL= http://example.com`: the colon of the value is not preserved. -/
theorem migrateConfig_url_value_colon_lost :
    '#' ∉ " http://example.com".toList ∧
    migrateConfig ("url".toList ++ ":".toList ++ " http://example.com".toList) =
      some ("BaseURL= http=//example.com".toList, false) ∧
    migrateConfig ("url".toList ++ ":".toList ++ " http://example.com".toList) ≠
      some ("BaseURL".toList ++ "=".toList ++ " http://example.com".toList, false) := by
  decide

/-- C8: for every string `p` with no `#` and every string `c`, `migrateConfig`
returns on `p#c` what it returns on `p`: nothing from the first `#` onward
influences the result. -/
theorem migrateConfig_comment_stripped (p c : GoString) (h : '#' ∉ p) :
    migrateConfig (p ++ "#".toList ++ c) = migrateConfig p := by
  have hline : p ++ "#".toList ++ c = p ++ '#' :: c := by simp
  have e1 : (stringsCut (p ++ '#' :: c) '#').1 = p := by
    rw [stringsCut_append_sep '#' p c h]
  have e2 : (stringsCut p '#').1 = p := by
    rw [stringsCut_of_not_mem '#' p h]
  rw [hline]
  unfold migrateConfig
  rw [e1, e2]

theorem migrateConfig_comment_stripped_witness :
    '#' ∉ "url: /blog ".toList ∧
    migrateConfig ("url: /blog ".toList ++ "#".toList ++ " the site: root".toList) =
      migrateConfig "url: /blog ".toList :=
  ⟨by decide,
    migrateConfig_comment_stripped "url: /blog ".toList " the site: root".toList (by decide)⟩

/-- C9: for every line, `migrateConfig` returns a pair `(out, omit)` with
omit = true if and only if `out` is empty: either the line is omitted and the
output is empty, or it is kept and the output is non-empty and contains `=`. -/
theorem migrateConfig_omit_iff_empty (c : GoString) :
    ∃ out omitted, migrateConfig c = some (out, omitted) ∧
      ((omitted = true ↔ out = []) ∧
        ((omitted = true ∧ out = []) ∨ (omitted = false ∧ out ≠ [] ∧ '=' ∈ out))) := by
  have kept : ∀ (a b : GoString) (t : List GoString),
      (false = true ↔ stringsJoin (a :: b :: t) "=".toList = []) ∧
      ((false = true ∧ stringsJoin (a :: b :: t) "=".toList = []) ∨
        (false = false ∧ stringsJoin (a :: b :: t) "=".toList ≠ [] ∧
          '=' ∈ stringsJoin (a :: b :: t) "=".toList)) := by
    intro a b t
    have hmem : '=' ∈ stringsJoin (a :: b :: t) "=".toList :=
      mem_stringsJoin_cons_cons a b t '='
    have hne : stringsJoin (a :: b :: t) "=".toList ≠ [] := List.ne_nil_of_mem hmem
    exact ⟨⟨fun e => Bool.noConfusion e, fun e => absurd e hne⟩, Or.inr ⟨rfl, hne, hmem⟩⟩
  rcases stringsSplit_cases (stringsCut c '#').1 ':' with ⟨k, hk⟩ | ⟨k, v, rest, hk⟩
  · exact ⟨[], true, migrateConfig_of_split_one c k hk, by simp, Or.inl ⟨rfl, rfl⟩⟩
  · rw [migrateConfig_of_split_two c k v rest hk, rewriteConfig_cons_cons]
    by_cases ho : omitConfig k = true
    · rw [if_pos ho]
      exact ⟨[], true, rfl, by simp, Or.inl ⟨rfl, rfl⟩⟩
    · rw [if_neg ho]
      split_ifs
      · exact ⟨_, false, rfl, kept _ _ _⟩
      · exact ⟨_, false, rfl, kept _ _ _⟩
      · exact ⟨_, false, rfl, kept _ _ _⟩

/-- C10: `migrateConfig` is total and never indexes a missing field: for every
line the split of the payload on `:` has a first field, the function returns
a result (no index is out of range), and it either returns early with the
omitted pair or runs the key switch, the only reader of the second field, on
a split of at least two fields, where the switch succeeds. -/
theorem migrateConfig_total (c : GoString) :
    (∃ k fs, stringsSplit (stringsCut c '#').1 ':' = k :: fs) ∧
    (∃ r, migrateConfig c = some r) ∧
    (migrateConfig c = some ([], true) ∨
      ∃ k v rest config,
        stringsSplit (stringsCut c '#').1 ':' = k :: v :: rest ∧
        rewriteConfig (k :: v :: rest) = some config ∧
        migrateConfig c = some (stringsJoin config "=".toList, false)) := by
  rcases stringsSplit_cases (stringsCut c '#').1 ':' with ⟨k, hk⟩ | ⟨k, v, rest, hk⟩
  · have hr := migrateConfig_of_split_one c k hk
    exact ⟨⟨k, [], hk⟩, ⟨_, hr⟩, Or.inl hr⟩
  · have hr := migrateConfig_of_split_two c k v rest hk
    refine ⟨⟨k, v :: rest, hk⟩, ?_⟩
    by_cases ho : omitConfig k = true
    · rw [if_pos ho] at hr
      exact ⟨⟨_, hr⟩, Or.inl hr⟩
    · rw [if_neg ho] at hr
      obtain ⟨config, hconfig⟩ : ∃ config, rewriteConfig (k :: v :: rest) = some config := by
        rw [rewriteConfig_cons_cons]
        split_ifs <;> exact ⟨_, rfl⟩
      rw [hconfig] at hr
      exact ⟨⟨_, hr⟩, Or.inr ⟨k, v, rest, config, hk, hconfig, hr⟩⟩

/-- C11: every path none of whose segments is exactly a key of `specialDirs`
is returned unchanged by `migratePath`; this covers the empty path and
segments that only contain a key, such as `_sass_old` and `mypages`. -/
theorem migratePath_of_no_key (sep : Char) (p : GoString)
    (h : ∀ seg ∈ stringsSplit p sep,
      seg ∉ ["_sass".toList, "_data".toList, "_layouts".toList, "_includes".toList,
        "pages".toList, "assets".toList, "js".toList, "css".toList]) :
    migratePath sep p = Except.ok p := by
  rw [migratePath_ok, stringsJoin_map_lookup_of_no_key sep p
    (fun seg hseg => lookup_specialDirs_of_not_key sep seg (h seg hseg))]

theorem migratePath_of_no_key_witness :
    ((∀ seg ∈ stringsSplit "_sass_old/mypages/a.md".toList '/',
        seg ∉ ["_sass".toList, "_data".toList, "_layouts".toList, "_includes".toList,
        "pages".toList, "assets".toList, "js".toList, "css".toList]) ∧
      migratePath '/' "_sass_old/mypages/a.md".toList =
        Except.ok "_sass_old/mypages/a.md".toList) ∧
    ((∀ seg ∈ stringsSplit "".toList '/',
        seg ∉ ["_sass".toList, "_data".toList, "_layouts".toList, "_includes".toList,
        "pages".toList, "assets".toList, "js".toList, "css".toList]) ∧
      migratePath '/' "".toList = Except.ok "".toList) :=
  ⟨⟨by decide, migratePath_of_no_key '/' "_sass_old/mypages/a.md".toList (by decide)⟩,
    ⟨by decide, migratePath_of_no_key '/' "".toList (by decide)⟩⟩

/-- C12, as stated, fails: `_sass/theme.scss` is mapped to
`assets/scss/theme.scss`, and mapping that path again gives
`static/scss/theme.scss`, a different path. -/
theorem migratePath_not_idempotent :
    migratePath '/' "_sass/theme.scss".toList = Except.ok "assets/scss/theme.scss".toList ∧
    migratePath '/' "assets/scss/theme.scss".toList =
      Except.ok "static/scss/theme.scss".toList ∧
    migratePath '/' "assets/scss/theme.scss".toList ≠
      Except.ok "assets/scss/theme.scss".toList := by
  refine ⟨by rfl, by rfl, ?_⟩
  intro h
  have h2 : migratePath '/' "assets/scss/theme.scss".toList =
      Except.ok "static/scss/theme.scss".toList := by rfl
  rw [h2] at h
  exact absurd (Except.ok.inj h) (by decide)

/-- C12, amended: with the path separator `/` or `\\`, mapping the mapped
path of `p` again returns it unchanged exactly when no segment of `p` is
`_sass`, `js` or `css`, the keys whose replacement contains a key of the
table. -/
theorem migratePath_idempotent (sep : Char) (p : GoString)
    (hsep : sep = '/' ∨ sep = '\\') :
    ∃ out, migratePath sep p = Except.ok out ∧
      (migratePath sep out = Except.ok out ↔
        ∀ seg ∈ stringsSplit p sep, seg ∉ ["_sass".toList, "js".toList, "css".toList]) := by
  refine ⟨_, migratePath_ok sep p, ?_⟩
  have hsegs := stringsSplit_stringsJoin sep
    ((stringsSplit p sep).map fun seg => ((specialDirs sep).lookup seg).getD seg)
    (by simpa using stringsSplit_ne_nil p sep)
  constructor
  · intro hidem seg hseg hbad
    rw [migratePath_ok] at hidem
    have hjoin := Except.ok.inj hidem
    have hsplit := congrArg (fun x => stringsSplit x sep) hjoin
    simp only at hsplit
    rw [stringsSplit_stringsJoin sep _ (by simpa using stringsSplit_ne_nil _ sep),
      List.flatMap_map] at hsplit
    have hfix := flatMap_eq_self _ (fun x => stringsSplit_ne_nil _ sep) _ hsplit
    have hassets : "assets".toList ∈ stringsSplit (stringsJoin
        ((stringsSplit p sep).map fun seg => ((specialDirs sep).lookup seg).getD seg) [sep])
        sep := by
      rw [hsegs]
      simp only [List.mem_flatMap, List.mem_map]
      exact ⟨_, ⟨seg, hseg, rfl⟩, assets_mem_segment_image sep seg hsep hbad⟩
    exact assets_image_ne sep hsep (hfix _ hassets)
  · intro h
    rw [migratePath_ok]
    congr 1
    apply stringsJoin_map_lookup_of_no_key
    intro s hs
    rw [hsegs] at hs
    simp only [List.mem_flatMap, List.mem_map] at hs
    obtain ⟨img, ⟨seg, hseg, rfl⟩, hmem⟩ := hs
    exact lookup_specialDirs_of_not_key sep s
      (segment_image_no_key sep seg hsep (not_mem_of_mem_stringsSplit sep p seg hseg)
        (h seg hseg) s hmem)

theorem migratePath_idempotent_witness :
    ('/' = '/' ∨ '/' = '\\') ∧
    ∃ out, migratePath '/' "pages/_layouts/assets/a.md".toList = Except.ok out ∧
      (migratePath '/' out = Except.ok out ↔
        ∀ seg ∈ stringsSplit "pages/_layouts/assets/a.md".toList '/',
          seg ∉ ["_sass".toList, "js".toList, "css".toList]) :=
  ⟨by decide, migratePath_idempotent '/' "pages/_layouts/assets/a.md".toList (by decide)⟩

/-- C13: with the path separator `/` or `\\`, the number of separators in the
mapped path is the number in `p` plus, over the segments of `p` that are keys,
the number of separators in the replacement: one for each segment `_sass`,
`_layouts`, `_includes`, `js` or `css`, none for the others; the number of
segments grows by the same amount; so when no segment is one of those five
keys, the separator count and the segment count are those of the input. -/
theorem migratePath_separator_count (sep : Char) (p : GoString)
    (hsep : sep = '/' ∨ sep = '\\') :
    ∃ out, migratePath sep p = Except.ok out ∧
      out.count sep = p.count sep +
        ((stringsSplit p sep).map fun seg =>
          match specialDirsGet sep seg with
          | some v => v.count sep
          | none => 0).sum ∧
      out.count sep = p.count sep +
        (stringsSplit p sep).countP (fun seg => decide (seg ∈
          ["_sass".toList, "_layouts".toList, "_includes".toList, "js".toList, "css".toList])) ∧
      (stringsSplit out sep).length = (stringsSplit p sep).length +
        (stringsSplit p sep).countP (fun seg => decide (seg ∈
          ["_sass".toList, "_layouts".toList, "_includes".toList, "js".toList, "css".toList])) ∧
      ((∀ seg ∈ stringsSplit p sep, seg ∉
          ["_sass".toList, "_layouts".toList, "_includes".toList, "js".toList, "css".toList]) →
        out.count sep = p.count sep ∧
        (stringsSplit out sep).length = (stringsSplit p sep).length) := by
  refine ⟨_, migratePath_ok sep p, ?_⟩
  have hA := count_stringsJoin sep
    ((stringsSplit p sep).map fun seg => ((specialDirs sep).lookup seg).getD seg)
    (by simpa using stringsSplit_ne_nil p sep)
  have hB := stringsSplit_length sep p
  have hC := stringsSplit_length sep (stringsJoin
    ((stringsSplit p sep).map fun seg => ((specialDirs sep).lookup seg).getD seg) [sep])
  have hsum1 : (((stringsSplit p sep).map fun seg =>
        ((specialDirs sep).lookup seg).getD seg).map fun x => x.count sep).sum =
      ((stringsSplit p sep).map fun seg =>
        match specialDirsGet sep seg with
        | some v => v.count sep
        | none => 0).sum := by
    rw [List.map_map]
    congr 1
    apply List.map_congr_left
    intro seg hseg
    exact count_segment_image sep seg (not_mem_of_mem_stringsSplit sep p seg hseg)
  have hsum2 : ((stringsSplit p sep).map fun seg =>
        match specialDirsGet sep seg with
        | some v => v.count sep
        | none => 0).sum =
      (stringsSplit p sep).countP (fun seg => decide (seg ∈
        ["_sass".toList, "_layouts".toList, "_includes".toList, "js".toList, "css".toList])) := by
    rw [← sum_map_ite_eq_countP]
    congr 1
    apply List.map_congr_left
    intro seg _
    exact count_replacement sep seg hsep
  rw [hsum1, List.length_map] at hA
  refine ⟨by omega, by omega, by omega, ?_⟩
  intro hnone
  have hzero : (stringsSplit p sep).countP (fun seg => decide (seg ∈
      ["_sass".toList, "_layouts".toList, "_includes".toList, "js".toList, "css".toList])) = 0 := by
    rw [List.countP_eq_zero]
    intro seg hseg
    simpa using hnone seg hseg
  omega

theorem migratePath_separator_count_witness :
    ('/' = '/' ∨ '/' = '\\') ∧
    ∃ out, migratePath '/' "_sass/pages/js/a.md".toList = Except.ok out ∧
      out.count '/' = "_sass/pages/js/a.md".toList.count '/' +
        ((stringsSplit "_sass/pages/js/a.md".toList '/').map fun seg =>
          match specialDirsGet '/' seg with
          | some v => v.count '/'
          | none => 0).sum ∧
      out.count '/' = "_sass/pages/js/a.md".toList.count '/' +
        (stringsSplit "_sass/pages/js/a.md".toList '/').countP (fun seg => decide (seg ∈
          ["_sass".toList, "_layouts".toList, "_includes".toList, "js".toList, "css".toList])) ∧
      (stringsSplit out '/').length = (stringsSplit "_sass/pages/js/a.md".toList '/').length +
        (stringsSplit "_sass/pages/js/a.md".toList '/').countP (fun seg => decide (seg ∈
          ["_sass".toList, "_layouts".toList, "_includes".toList, "js".toList, "css".toList])) ∧
      ((∀ seg ∈ stringsSplit "_sass/pages/js/a.md".toList '/', seg ∉
          ["_sass".toList, "_layouts".toList, "_includes".toList, "js".toList, "css".toList]) →
        out.count '/' = "_sass/pages/js/a.md".toList.count '/' ∧
        (stringsSplit out '/').length =
          (stringsSplit "_sass/pages/js/a.md".toList '/').length) :=
  ⟨by decide, migratePath_separator_count '/' "_sass/pages/js/a.md".toList (by decide)⟩

/-- C14: `migratePath` is segment-local and position-independent: for all
paths `a` and `b`, the path `a`, separator, `b` is mapped to the mapped `a`,
separator, the mapped `b`. -/
theorem migratePath_append (sep : Char) (a b : GoString) :
    ∃ ra rb, migratePath sep a = Except.ok ra ∧ migratePath sep b = Except.ok rb ∧
      migratePath sep (a ++ [sep] ++ b) = Except.ok (ra ++ [sep] ++ rb) := by
  refine ⟨_, _, migratePath_ok sep a, migratePath_ok sep b, ?_⟩
  have e : a ++ [sep] ++ b = a ++ sep :: b := by simp
  rw [e, migratePath_ok, stringsSplit_append_sep_any, List.map_append,
    stringsJoin_append _ _ [sep] (by simpa using stringsSplit_ne_nil a sep)
      (by simpa using stringsSplit_ne_nil b sep)]

/-- C15 on the code: the line `exclude: docs:old` is kept and its key is
`exclude`, yet the output is `ignoreFiles= docs$=old`: the `$` is appended to
the second field of the split on every colon, and the line does not end with
`$`. -/
theorem migrateConfig_exclude_anchor_not_trailing :
    (stringsCut (stringsCut "exclude: docs:old".toList '#').1 ':').1 = "exclude".toList ∧
    migrateConfig "exclude: docs:old".toList =
      some ("ignoreFiles= docs$=old".toList, false) ∧
    "ignoreFiles= docs$=old".toList.getLast? ≠ some '$' := by
  decide

/-- C16: for every line, `migrateConfig` returns omit = false if and only if
the payload contains a `:` and the text before its first `:`, untrimmed, is
not exactly one of markdown, baseurl, sass, plugins, defaults; the key
` markdown`, with a leading space, is not omitted. -/
theorem migrateConfig_kept_iff (c : GoString) :
    (∃ out omitted, migrateConfig c = some (out, omitted) ∧
      (omitted = false ↔
        (':' ∈ (stringsCut c '#').1 ∧
          (stringsCut (stringsCut c '#').1 ':').1 ∉ ["markdown".toList, "baseurl".toList, "sass".toList, "plugins".toList,
      "defaults".toList]))) ∧
    migrateConfig " markdown: kramdown".toList =
      some (" markdown= kramdown".toList, false) := by
  refine ⟨?_, by decide⟩
  rcases migrateConfig_cases c with ⟨hom, hr⟩ | ⟨hcolon, ho, v, rest, _, hr⟩
  · refine ⟨[], true, hr, ?_⟩
    constructor
    · intro e
      exact Bool.noConfusion e
    · rintro ⟨h1, h2⟩
      rcases hom with h | h
      · exact absurd h1 h
      · exact absurd ((omitConfig_eq_true_iff _).mp h) h2
  · obtain ⟨config, hconfig⟩ : ∃ config,
        rewriteConfig ((stringsCut (stringsCut c '#').1 ':').1 :: v :: rest) = some config := by
      rw [rewriteConfig_cons_cons]
      split_ifs <;> exact ⟨_, rfl⟩
    rw [hconfig] at hr
    refine ⟨_, false, hr, ?_⟩
    constructor
    · intro _
      refine ⟨hcolon, fun hmem => ?_⟩
      rw [(omitConfig_eq_true_iff _).mpr hmem] at ho
      exact Bool.noConfusion ho
    · intro _
      rfl

/-- C17: the field split is n-way. Whatever `migrateConfig` returns contains
neither `:` nor `#`; and for a kept line whose key (the text before the first
`:` of the payload) is not `exclude`, the output is the payload with every `:`
replaced by `=`, the key `url` being replaced by `BaseURL`. So
`url: http://example.com` becomes `BaseURL= http=//example.com`. -/
theorem migrateConfig_nway (c out : GoString) (omitted : Bool)
    (h : migrateConfig c = some (out, omitted)) :
    (':' ∉ out ∧ '#' ∉ out) ∧
    (omitted = false → (stringsCut (stringsCut c '#').1 ':').1 ≠ "exclude".toList →
      ((stringsCut (stringsCut c '#').1 ':').1 ≠ "url".toList →
        out = stringsReplaceAll (stringsCut c '#').1 ':' "=".toList) ∧
      ((stringsCut (stringsCut c '#').1 ':').1 = "url".toList →
        out = "BaseURL".toList ++
          stringsReplaceAll ((stringsCut c '#').1.drop 3) ':' "=".toList)) ∧
    migrateConfig "url: http://example.com".toList =
      some ("BaseURL= http=//example.com".toList, false) := by
  refine ⟨?_, ?_, by decide⟩
  · rcases migrateConfig_cases c with ⟨_, hr⟩ | ⟨hcolon, _, v, rest, hv, hr⟩
    · rw [hr] at h
      have e := (Prod.mk.inj (Option.some.inj h)).1
      subst e
      simp
    · obtain ⟨config, hconfig⟩ : ∃ config,
          rewriteConfig ((stringsCut (stringsCut c '#').1 ':').1 :: v :: rest) = some config := by
        rw [rewriteConfig_cons_cons]
        split_ifs <;> exact ⟨_, rfl⟩
      rw [hconfig, h] at hr
      have e := (Prod.mk.inj (Option.some.inj hr)).1
      subst e
      have hsplit := stringsSplit_of_mem ':' _ hcolon
      rw [hv] at hsplit
      have hfields : ∀ ch : Char, ch = ':' ∨ ch = '#' →
          ∀ x ∈ (stringsCut (stringsCut c '#').1 ':').1 :: v :: rest, ch ∉ x := by
        intro ch hch x hx
        rw [← hsplit] at hx
        rcases hch with rfl | rfl
        · exact not_mem_of_mem_stringsSplit ':' _ x hx
        · intro hmem
          rcases mem_of_mem_splitFrom ':' '#' _ [] x hx hmem with h2 | h2
          · simp at h2
          · exact not_mem_stringsCut_fst '#' c h2
      exact ⟨not_mem_joined_config ':' (Or.inl rfl) _ v rest config (hfields ':' (Or.inl rfl))
          hconfig,
        not_mem_joined_config '#' (Or.inr rfl) _ v rest config (hfields '#' (Or.inr rfl))
          hconfig⟩
  · intro hkept hkey
    rcases migrateConfig_cases c with ⟨_, hr⟩ | ⟨hcolon, _, v, rest, hv, hr⟩
    · rw [hr] at h
      have e := (Prod.mk.inj (Option.some.inj h)).2
      rw [hkept] at e
      exact Bool.noConfusion e
    · obtain ⟨hP, hK⟩ := stringsCut_of_mem ':' _ hcolon
      have hjoin : stringsJoin (v :: rest) "=".toList =
          stringsReplaceAll (stringsCut (stringsCut c '#').1 ':').2.1 ':' "=".toList := by
        rw [← hv]
        simpa [stringsSplit] using
          stringsJoin_splitFrom_eq_replaceAll ':' (stringsCut (stringsCut c '#').1 ':').2.1 []
            "=".toList
      have hrepl : stringsReplaceAll (stringsCut c '#').1 ':' "=".toList =
          (stringsCut (stringsCut c '#').1 ':').1 ++ "=".toList ++
            stringsReplaceAll (stringsCut (stringsCut c '#').1 ':').2.1 ':' "=".toList := by
        conv_lhs => rw [hP]
        rw [stringsReplaceAll_append_of_not_mem ':' _ _ _ hK]
        simp [stringsReplaceAll]
      rw [rewriteConfig_cons_cons, if_neg hkey] at hr
      constructor
      · intro hurl
        rw [if_neg hurl, h] at hr
        have e := (Prod.mk.inj (Option.some.inj hr)).1
        rw [e, stringsJoin_cons_of_ne_nil _ _ _ (by simp), hjoin, hrepl]
      · intro hurl
        rw [if_pos hurl, h] at hr
        have e := (Prod.mk.inj (Option.some.inj hr)).1
        have hdrop : (stringsCut c '#').1.drop 3 =
            ':' :: (stringsCut (stringsCut c '#').1 ':').2.1 := by
          conv_lhs => rw [hP, hurl]
          rfl
        rw [e, stringsJoin_cons_of_ne_nil _ _ _ (by simp), hjoin, hdrop]
        simp [stringsReplaceAll]

theorem migrateConfig_nway_witness :
    migrateConfig "url: http://example.com".toList =
      some ("BaseURL= http=//example.com".toList, false) ∧
    ((':' ∉ "BaseURL= http=//example.com".toList ∧
        '#' ∉ "BaseURL= http=//example.com".toList) ∧
      (false = false →
        (stringsCut (stringsCut "url: http://example.com".toList '#').1 ':').1 ≠
          "exclude".toList →
        ((stringsCut (stringsCut "url: http://example.com".toList '#').1 ':').1 ≠
            "url".toList →
          "BaseURL= http=//example.com".toList =
            stringsReplaceAll (stringsCut "url: http://example.com".toList '#').1 ':'
              "=".toList) ∧
        ((stringsCut (stringsCut "url: http://example.com".toList '#').1 ':').1 =
            "url".toList →
          "BaseURL= http=//example.com".toList = "BaseURL".toList ++
            stringsReplaceAll ((stringsCut "url: http://example.com".toList '#').1.drop 3)
              ':' "=".toList)) ∧
      migrateConfig "url: http://example.com".toList =
        some ("BaseURL= http=//example.com".toList, false)) :=
  ⟨by decide,
    migrateConfig_nway "url: http://example.com".toList
      "BaseURL= http=//example.com".toList false (by decide)⟩

/-- C18: with the path separator `/` or `\\`, no segment of a mapped path is
one of the source-only names `_sass`, `_data`, `_layouts`, `_includes`,
`pages`; so a segment of a mapped path that is a key of the table is `assets`,
`js` or `css`, and these do occur: `js/css` is mapped to
`assets/js/assets/css`. -/
theorem migratePath_no_source_only_segment (sep : Char) (p : GoString)
    (hsep : sep = '/' ∨ sep = '\\') :
    (∃ out, migratePath sep p = Except.ok out ∧
      (∀ seg ∈ stringsSplit out sep, seg ∉ ["_sass".toList, "_data".toList, "_layouts".toList, "_includes".toList,
        "pages".toList]) ∧
      (∀ seg ∈ stringsSplit out sep,
        seg ∈ ["_sass".toList, "_data".toList, "_layouts".toList, "_includes".toList,
          "pages".toList, "assets".toList, "js".toList, "css".toList] →
        seg ∈ ["assets".toList, "js".toList, "css".toList])) ∧
    migratePath '/' "js/css".toList = Except.ok "assets/js/assets/css".toList := by
  refine ⟨⟨_, migratePath_ok sep p, ?_⟩, by rfl⟩
  have hsrc : ∀ seg ∈ stringsSplit (stringsJoin
      ((stringsSplit p sep).map fun seg => ((specialDirs sep).lookup seg).getD seg) [sep]) sep,
      seg ∉ ["_sass".toList, "_data".toList, "_layouts".toList, "_includes".toList,
        "pages".toList] := by
    intro s hs
    rw [stringsSplit_stringsJoin sep _ (by simpa using stringsSplit_ne_nil p sep)] at hs
    simp only [List.mem_flatMap, List.mem_map] at hs
    obtain ⟨img, ⟨seg, hseg, rfl⟩, hmem⟩ := hs
    exact segment_image_not_source_only sep seg hsep
      (not_mem_of_mem_stringsSplit sep p seg hseg) s hmem
  refine ⟨hsrc, ?_⟩
  intro seg hseg hkey
  have hno := hsrc seg hseg
  simp only [List.mem_cons, List.mem_singleton, List.not_mem_nil, or_false] at hkey hno ⊢
  tauto

theorem migratePath_no_source_only_segment_witness :
    ('/' = '/' ∨ '/' = '\\') ∧
    ((∃ out, migratePath '/' "_sass/pages/_data/x".toList = Except.ok out ∧
      (∀ seg ∈ stringsSplit out '/', seg ∉ ["_sass".toList, "_data".toList, "_layouts".toList, "_includes".toList,
        "pages".toList]) ∧
      (∀ seg ∈ stringsSplit out '/',
        seg ∈ ["_sass".toList, "_data".toList, "_layouts".toList, "_includes".toList,
          "pages".toList, "assets".toList, "js".toList, "css".toList] →
        seg ∈ ["assets".toList, "js".toList, "css".toList])) ∧
    migratePath '/' "js/css".toList = Except.ok "assets/js/assets/css".toList) :=
  ⟨by decide,
    migratePath_no_source_only_segment '/' "_sass/pages/_data/x".toList (by decide)⟩

/-- C19: `migratePath` is not injective: the distinct paths `pages/a.md` and
`content/a.md` are both mapped to `content/a.md`, and `_data` and `data` are
both mapped to `data`. -/
theorem migratePath_not_injective :
    ("pages/a.md".toList ≠ "content/a.md".toList ∧
      migratePath '/' "pages/a.md".toList = Except.ok "content/a.md".toList ∧
      migratePath '/' "content/a.md".toList = Except.ok "content/a.md".toList) ∧
    ("_data".toList ≠ "data".toList ∧
      migratePath '/' "_data".toList = Except.ok "data".toList ∧
      migratePath '/' "data".toList = Except.ok "data".toList) ∧
    ¬ Function.Injective (migratePath '/') := by
  refine ⟨⟨by decide, by rfl, by rfl⟩, ⟨by decide, by rfl, by rfl⟩, ?_⟩
  intro hinj
  have e : "_data".toList = "data".toList := hinj (by rfl)
  exact absurd e (by decide)

end JekToHug
